import Mathlib

/-!
Verification of the mesh-router backend (secure-programming repository).

This file shallowly embeds the parts of the Python backend that the
specification's claims are about, and proves (or refutes) each claim:

* `backend/crypto/json_format.py` — `stabilise_json` (canonical JSON),
* `backend/crypto/base64url.py` — `base64url_decode`,
* `backend/crypto/rsa_pss.py` — `rsa_verify_pss` error behaviour,
* `backend/envelope.py` — `make_verifier`,
* `backend/routing.py` — `Router`: dedupe cache, `route_to_user`,
  hold queue, `reap_peers`,
* `backend/transport.py` — `_struct_ok`,
* `backend/server/handlers/server_hello_join.py` — duplicate-peer tie-break,
* `backend/server/handlers/user_advertise.py` — `handle_USER_ADVERTISE`.

Python dicts are embedded as association lists with distinct keys in
insertion order; Python sets as `Finset`; awaited sends as explicit
output-action lists; `time.time()` as an explicit `now` argument.
External cryptographic primitives (the `cryptography` library) are either
parameters of the embedded functions (mirroring the code's pluggable
helpers) or minimal executable models, as noted at each definition.
-/

namespace SecProg

/-- Python compares strings by code points; `Char.toNat` is the code point. -/
def charVal (c : Char) : Nat := c.toNat

/-- Lexicographic strict comparison on char lists, by code point
(the order Python uses for `str <`). -/
def listLtB : List Char → List Char → Bool
  | _, [] => false
  | [], _ :: _ => true
  | c :: cs, d :: ds =>
    if charVal c < charVal d then true
    else if charVal d < charVal c then false
    else listLtB cs ds

/-- Model of Python `a < b` on strings. -/
def pyStrLt (a b : String) : Bool := listLtB a.data b.data

/-- Model of Python `a <= b` on strings (total order companion of `pyStrLt`). -/
def pyStrLe (a b : String) : Bool := !(pyStrLt b a)

theorem charVal_inj {c d : Char} (h : charVal c = charVal d) : c = d :=
  Char.ext (UInt32.ext h)

theorem listLtB_asymm : ∀ as bs, listLtB as bs = true → listLtB bs as = false
  | _, [], h => by simp [listLtB] at h
  | [], _ :: _, _ => by simp [listLtB]
  | c :: cs, d :: ds, h => by
    simp only [listLtB] at h ⊢
    by_cases h1 : charVal c < charVal d
    · have h2 : ¬ charVal d < charVal c := Nat.lt_asymm h1
      simp [h1, h2]
    · by_cases h2 : charVal d < charVal c
      · simp [h1, h2] at h
      · simp only [h1, h2, if_false] at h ⊢
        exact listLtB_asymm cs ds h

theorem listLtB_eq : ∀ as bs, listLtB as bs = false → listLtB bs as = false → as = bs
  | [], [], _, _ => rfl
  | [], _ :: _, h, _ => by simp [listLtB] at h
  | _ :: _, [], _, h => by simp [listLtB] at h
  | c :: cs, d :: ds, h, h' => by
    simp only [listLtB] at h h'
    by_cases h1 : charVal c < charVal d
    · simp [h1] at h
    · by_cases h2 : charVal d < charVal c
      · simp [h1, h2] at h'
      · simp only [h1, h2, if_false] at h h'
        have hc : c = d := charVal_inj (Nat.le_antisymm (Nat.le_of_not_lt h2) (Nat.le_of_not_lt h1))
        rw [hc, listLtB_eq cs ds h h']

theorem string_ext {a b : String} (h : a.data = b.data) : a = b := by
  cases a; cases b; exact congrArg String.mk h

theorem pyStrLt_asymm {a b : String} (h : pyStrLt a b = true) : pyStrLt b a = false :=
  listLtB_asymm _ _ h

theorem pyStr_eq_of_not_lt {a b : String} (h : pyStrLt a b = false)
    (h' : pyStrLt b a = false) : a = b :=
  string_ext (listLtB_eq _ _ h h')

theorem pyStrLe_total {a b : String} (h : pyStrLe a b = false) : pyStrLe b a = true := by
  unfold pyStrLe at h ⊢
  cases hlt : pyStrLt b a with
  | false => rw [hlt] at h; simp at h
  | true => rw [pyStrLt_asymm hlt]; rfl

theorem pyStrLt_of_le_ne {a b : String} (h : pyStrLe a b = true) (hne : a ≠ b) :
    pyStrLt a b = true := by
  unfold pyStrLe at h
  cases hba : pyStrLt b a with
  | true => rw [hba] at h; simp at h
  | false =>
    cases hab : pyStrLt a b with
    | true => rfl
    | false => exact absurd (pyStr_eq_of_not_lt hab hba) hne

/-- Lookup in a Python dict embedded as an association list (first match). -/
def dictGet {α : Type} : List (String × α) → String → Option α
  | [], _ => none
  | (k', v) :: rest, k => if k' = k then some v else dictGet rest k

/-- Python `d[k] = v`: replace in place if the key exists, else append. -/
def dictSet {α : Type} : List (String × α) → String → α → List (String × α)
  | [], k, v => [(k, v)]
  | (k', v') :: rest, k, v =>
    if k' = k then (k, v) :: rest else (k', v') :: dictSet rest k v

/-- Python `d.pop(k, None)`: remove the entry for `k` (all occurrences in the
association-list embedding; dicts hold at most one). -/
def dictPop {α : Type} (d : List (String × α)) (k : String) : List (String × α) :=
  d.filter (fun p => p.1 ≠ k)

theorem dictGet_dictSet_self {α : Type} (d : List (String × α)) (k : String) (v : α) :
    dictGet (dictSet d k v) k = some v := by
  induction d with
  | nil => simp [dictSet, dictGet]
  | cons p rest ih =>
    by_cases h : p.1 = k
    · simp [dictSet, dictGet, h]
    · simp [dictSet, dictGet, h, ih]

theorem dictGet_dictSet_ne {α : Type} (d : List (String × α)) (k k' : String) (v : α)
    (h : k ≠ k') : dictGet (dictSet d k v) k' = dictGet d k' := by
  induction d with
  | nil => simp [dictSet, dictGet, h]
  | cons p rest ih =>
    by_cases hp : p.1 = k
    · simp [dictSet, dictGet, hp, h]
    · simp only [dictSet, hp, if_false]
      by_cases hp' : p.1 = k'
      · simp [dictGet, hp']
      · simp [dictGet, hp', ih]

theorem dictGet_dictPop_self {α : Type} (d : List (String × α)) (k : String) :
    dictGet (dictPop d k) k = none := by
  induction d with
  | nil => rfl
  | cons p rest ih =>
    by_cases h : p.1 = k
    · simpa [dictPop, h] using ih
    · simpa [dictPop, dictGet, h] using ih

theorem dictGet_dictPop_none {α : Type} (d : List (String × α)) (k k' : String)
    (h : dictGet d k' = none) : dictGet (dictPop d k) k' = none := by
  induction d with
  | nil => rfl
  | cons p rest ih =>
    by_cases hp : p.1 = k'
    · simp [dictGet, hp] at h
    · simp only [dictGet, hp, if_false] at h
      by_cases hk : p.1 = k
      · simpa [dictPop, hk] using ih h
      · simpa [dictPop, dictGet, hp, hk] using ih h

theorem dictSet_keys {α : Type} (d : List (String × α)) (k : String) (v : α) :
    (dictSet d k v).map Prod.fst = d.map Prod.fst ∨
    (dictSet d k v).map Prod.fst = d.map Prod.fst ++ [k] := by
  induction d with
  | nil => right; rfl
  | cons p rest ih =>
    by_cases h : p.1 = k
    · left; simp [dictSet, h]
    · rcases ih with ih | ih
      · left; simp [dictSet, h, ih]
      · right; simp [dictSet, h, ih]

theorem filter_key_le_one_of_nodup {α : Type} (d : List (String × α)) (k : String)
    (h : (d.map Prod.fst).Nodup) :
    (d.filter (fun p => p.1 = k)).length ≤ 1 := by
  induction d with
  | nil => simp
  | cons p rest ih =>
    simp only [List.map_cons, List.nodup_cons] at h
    by_cases hp : p.1 = k
    · have : rest.filter (fun q => q.1 = k) = [] := by
        apply List.filter_eq_nil_iff.mpr
        intro q hq hqk
        exact h.1 (by
          have : q.1 = p.1 := by
            simp only [decide_eq_true_eq] at hqk
            rw [hqk, hp]
          rw [← this]
          exact List.mem_map_of_mem Prod.fst hq)
      simp [List.filter, hp, this]
    · simpa [List.filter, hp] using ih h.2

theorem dictSet_keys_nodup {α : Type} (d : List (String × α)) (k : String) (v : α)
    (h : (d.map Prod.fst).Nodup) (hmem : (dictGet d k).isSome) :
    ((dictSet d k v).map Prod.fst).Nodup := by
  induction d with
  | nil => simp [dictGet] at hmem
  | cons p rest ih =>
    simp only [List.map_cons, List.nodup_cons] at h
    by_cases hp : p.1 = k
    · simp only [dictSet, hp, if_true, List.map_cons, List.nodup_cons]
      exact ⟨by rw [← hp]; exact h.1, h.2⟩
    · simp only [dictGet, hp, if_false] at hmem
      simp only [dictSet, hp, if_false, List.map_cons, List.nodup_cons]
      constructor
      · intro hc
        rcases dictSet_keys rest k v with hk | hk
        · exact h.1 (hk ▸ hc)
        · rw [hk] at hc
          rcases List.mem_append.mp hc with hc | hc
          · exact h.1 hc
          · simp only [List.mem_singleton] at hc
            exact hp hc
      · exact ih h.2 hmem

/-- JSON-representable Python values, as handled by `json.dumps` in
`backend/crypto/json_format.py`. Objects are association lists in insertion
order (Python dicts); numbers are integers plus the non-finite floats that
`allow_nan=False` rejects. -/
inductive J where
  | jnull
  | jbool (b : Bool)
  | jint (n : Int)
  | jnan
  | jinf
  | jninf
  | jstr (s : String)
  | jarr (xs : List J)
  | jobj (fs : List (String × J))

/-- Lower-case hex digit, as produced by JSON `\u00XX` escapes. -/
def hexDigit (n : Nat) : Char :=
  if n < 10 then Char.ofNat (48 + n) else Char.ofNat (97 + (n - 10))

/-- Escape one character the way `json.dumps(..., ensure_ascii=False)` does:
quote, backslash and control characters are escaped, everything else is
passed through. -/
def escChar (c : Char) : List Char :=
  if c = '"' then ['\\', '"']
  else if c = '\\' then ['\\', '\\']
  else if charVal c = 10 then ['\\', 'n']
  else if charVal c = 13 then ['\\', 'r']
  else if charVal c = 9 then ['\\', 't']
  else if charVal c = 8 then ['\\', 'b']
  else if charVal c = 12 then ['\\', 'f']
  else if charVal c < 32 then ['\\', 'u', '0', '0', hexDigit (charVal c / 16), hexDigit (charVal c % 16)]
  else [c]

/-- JSON string literal (quotes plus escaped body). -/
def jsonQuote (s : String) : String :=
  String.mk ('"' :: s.data.foldr (fun c acc => escChar c ++ acc) ['"'])

/-- Insert a field into a key-sorted field list (comparison is Python's
string order, the order `sort_keys=True` uses). -/
def insertPair (p : String × J) : List (String × J) → List (String × J)
  | [] => [p]
  | q :: rest => if pyStrLe p.1 q.1 = true then p :: q :: rest else q :: insertPair p rest

/-- Sort an object's fields by key, as `json.dumps(..., sort_keys=True)` does.
With distinct keys (a dict) the sorted result is unique, so the choice of
sorting algorithm is immaterial. -/
def sortPairs : List (String × J) → List (String × J)
  | [] => []
  | p :: rest => insertPair p (sortPairs rest)

mutual
/-- Normalised form of a value: every object's fields sorted by key at every
nesting level. `json.dumps(..., sort_keys=True)` serialises exactly this. -/
def normJ : J → J
  | .jobj fs => .jobj (sortPairs (normFields fs))
  | .jarr xs => .jarr (normList xs)
  | .jnull => .jnull
  | .jbool b => .jbool b
  | .jint n => .jint n
  | .jnan => .jnan
  | .jinf => .jinf
  | .jninf => .jninf
  | .jstr s => .jstr s

def normList : List J → List J
  | [] => []
  | x :: xs => normJ x :: normList xs

def normFields : List (String × J) → List (String × J)
  | [] => []
  | (k, v) :: fs => (k, normJ v) :: normFields fs
end

mutual
/-- Compact serialisation (separators `(",", ":")`, `ensure_ascii=False`);
`none` models the `ValueError` that `allow_nan=False` raises on NaN/±inf. -/
def serJ : J → Option String
  | .jnull => some "null"
  | .jbool b => some (if b then "true" else "false")
  | .jint n => some (toString n)
  | .jnan => none
  | .jinf => none
  | .jninf => none
  | .jstr s => some (jsonQuote s)
  | .jarr xs => (serList xs).map (fun t => "[" ++ t ++ "]")
  | .jobj fs => (serFields fs).map (fun t => "\x7b" ++ t ++ "\x7d")

def serList : List J → Option String
  | [] => some ""
  | [x] => serJ x
  | x :: y :: xs =>
    match serJ x, serList (y :: xs) with
    | some a, some b => some (a ++ "," ++ b)
    | _, _ => none

def serFields : List (String × J) → Option String
  | [] => some ""
  | [(k, v)] => (serJ v).map (fun t => jsonQuote k ++ ":" ++ t)
  | (k, v) :: q :: fs =>
    match serJ v, serFields (q :: fs) with
    | some a, some b => some (jsonQuote k ++ ":" ++ a ++ "," ++ b)
    | _, _ => none
end

/-- `stabilise_json` (backend/crypto/json_format.py): canonical JSON bytes —
compact UTF-8, keys sorted at every object level, NaN/±inf rejected
(`none` models the raised `ValueError`). -/
def stabilise_json (o : J) : Option String := serJ (normJ o)

mutual
/-- Whether a value contains NaN or ±infinity anywhere. -/
def hasBad : J → Bool
  | .jnan => true
  | .jinf => true
  | .jninf => true
  | .jarr xs => hasBadList xs
  | .jobj fs => hasBadFields fs
  | _ => false

def hasBadList : List J → Bool
  | [] => false
  | x :: xs => hasBad x || hasBadList xs

def hasBadFields : List (String × J) → Bool
  | [] => false
  | p :: fs => hasBad p.2 || hasBadFields fs
end

mutual
/-- Every object in the value has pairwise-distinct keys — automatically true
of values built from Python dicts, which this type embeds. -/
def nodupKeys : J → Bool
  | .jobj fs => decide (List.Nodup (fs.map Prod.fst)) && nodupKeysFields fs
  | .jarr xs => nodupKeysList xs
  | _ => true

def nodupKeysList : List J → Bool
  | [] => true
  | x :: xs => nodupKeys x && nodupKeysList xs

def nodupKeysFields : List (String × J) → Bool
  | [] => true
  | p :: fs => nodupKeys p.2 && nodupKeysFields fs
end

mutual
/-- Two values are equal up to reordering of the insertion order of object
keys, at any nesting level. -/
def permEq : J → J → Prop
  | .jnull, .jnull => True
  | .jbool a, .jbool b => a = b
  | .jint a, .jint b => a = b
  | .jnan, .jnan => True
  | .jinf, .jinf => True
  | .jninf, .jninf => True
  | .jstr a, .jstr b => a = b
  | .jarr xs, .jarr ys => permEqList xs ys
  | .jobj fs, .jobj gs => ∃ gs₀, List.Perm gs₀ gs ∧ permEqFields fs gs₀
  | _, _ => False

def permEqList : List J → List J → Prop
  | [], [] => True
  | x :: xs, y :: ys => permEq x y ∧ permEqList xs ys
  | _, _ => False

def permEqFields : List (String × J) → List (String × J) → Prop
  | [], [] => True
  | p :: ps, q :: qs => p.1 = q.1 ∧ permEq p.2 q.2 ∧ permEqFields ps qs
  | _, _ => False
end

theorem listLtB_trans : ∀ as bs cs, listLtB as bs = true → listLtB bs cs = true →
    listLtB as cs = true
  | _, _, [], _, h2 => by cases _h : listLtB _ [] <;> simp_all [listLtB]
  | [], [], _ :: _, h1, _ => by simp [listLtB] at h1
  | [], _ :: _, _ :: _, _, _ => by simp [listLtB]
  | _ :: _, [], _ :: _, h1, _ => by simp [listLtB] at h1
  | a :: as, b :: bs, c :: cs, h1, h2 => by
    simp only [listLtB] at h1 h2 ⊢
    by_cases hab : charVal a < charVal b
    · by_cases hbc : charVal b < charVal c
      · simp [Nat.lt_trans hab hbc]
      · by_cases hcb : charVal c < charVal b
        · simp [hbc, hcb] at h2
        · have : charVal b = charVal c := Nat.le_antisymm (Nat.le_of_not_lt hcb) (Nat.le_of_not_lt hbc)
          simp [this ▸ hab]
    · by_cases hba : charVal b < charVal a
      · simp [hab, hba] at h1
      · have hab' : charVal a = charVal b := Nat.le_antisymm (Nat.le_of_not_lt hba) (Nat.le_of_not_lt hab)
        simp only [hab, hba, if_false] at h1
        by_cases hbc : charVal b < charVal c
        · simp [hab' ▸ hbc]
        · by_cases hcb : charVal c < charVal b
          · simp [hbc, hcb] at h2
          · simp only [hbc, hcb, if_false] at h2
            simp only [hab' ▸ hbc, hab' ▸ hcb, if_false]
            exact listLtB_trans as bs cs h1 h2

theorem pyStrLe_trans {a b c : String} (h1 : pyStrLe a b = true) (h2 : pyStrLe b c = true) :
    pyStrLe a c = true := by
  unfold pyStrLe at h1 h2 ⊢
  cases hca : pyStrLt c a with
  | false => rfl
  | true =>
    exfalso
    cases hba : pyStrLt b a with
    | true => rw [hba] at h1; simp at h1
    | false =>
      cases hcb : pyStrLt c b with
      | true => rw [hcb] at h2; simp at h2
      | false =>
        cases hab : pyStrLt a b with
        | false =>
          have : a = b := pyStr_eq_of_not_lt hab hba
          rw [this] at hca
          rw [hca] at hcb
          simp at hcb
        | true =>
          have : pyStrLt c b = true := listLtB_trans _ _ _ hca hab
          rw [this] at hcb
          simp at hcb

/-- Field order used by `sort_keys=True`: compare keys with Python string order. -/
def keyLe (p q : String × J) : Prop := pyStrLe p.1 q.1 = true

/-- Strict version of `keyLe`. -/
def keyLt (p q : String × J) : Prop := pyStrLt p.1 q.1 = true

theorem insertPair_perm (p : String × J) : ∀ l, (insertPair p l).Perm (p :: l)
  | [] => List.Perm.refl _
  | q :: rest => by
    simp only [insertPair]
    by_cases h : pyStrLe p.1 q.1 = true
    · simp [h]
    · simp only [h, if_false]
      exact ((insertPair_perm p rest).cons q).trans (List.Perm.swap p q rest)

theorem sortPairs_perm : ∀ l, (sortPairs l).Perm l
  | [] => List.Perm.refl _
  | p :: rest => (insertPair_perm p (sortPairs rest)).trans ((sortPairs_perm rest).cons p)

theorem insertPair_sorted (p : String × J) : ∀ l, l.Pairwise keyLe →
    (insertPair p l).Pairwise keyLe
  | [], _ => by simp [insertPair]
  | q :: rest, h => by
    rw [List.pairwise_cons] at h
    simp only [insertPair]
    by_cases hle : pyStrLe p.1 q.1 = true
    · simp only [hle, if_true]
      refine List.Pairwise.cons ?_ (List.Pairwise.cons h.1 h.2)
      intro r hr
      rcases List.mem_cons.mp hr with rfl | hr
      · exact hle
      · exact pyStrLe_trans hle (h.1 r hr)
    · simp only [hle, if_false]
      refine List.Pairwise.cons ?_ (insertPair_sorted p rest h.2)
      intro r hr
      have hr' : r ∈ p :: rest := (insertPair_perm p rest).mem_iff.mp hr
      rcases List.mem_cons.mp hr' with rfl | hr'
      · exact pyStrLe_total (by simpa using hle)
      · exact h.1 r hr'

theorem sortPairs_sorted : ∀ l, (sortPairs l).Pairwise keyLe
  | [] => List.Pairwise.nil
  | p :: rest => insertPair_sorted p (sortPairs rest) (sortPairs_sorted rest)

theorem pairwise_keyLt_of_keyLe {l : List (String × J)} (h : l.Pairwise keyLe)
    (hnd : (l.map Prod.fst).Nodup) : l.Pairwise keyLt := by
  have hne : l.Pairwise (fun p q : String × J => p.1 ≠ q.1) := List.pairwise_map.mp hnd
  exact (h.and hne).imp (fun hpq => pyStrLt_of_le_ne hpq.1 (hpq.2))

theorem sortPairs_congr (l l' : List (String × J)) (hp : l.Perm l')
    (hnd : (l.map Prod.fst).Nodup) : sortPairs l = sortPairs l' := by
  have p1 : (sortPairs l).Perm (sortPairs l') :=
    (sortPairs_perm l).trans (hp.trans (sortPairs_perm l').symm)
  have nd1 : ((sortPairs l).map Prod.fst).Nodup :=
    (((sortPairs_perm l).map Prod.fst).nodup_iff).mpr hnd
  have nd2 : ((sortPairs l').map Prod.fst).Nodup :=
    ((p1.map Prod.fst).nodup_iff).mp nd1
  have t1 : (sortPairs l).Pairwise keyLt := pairwise_keyLt_of_keyLe (sortPairs_sorted l) nd1
  have t2 : (sortPairs l').Pairwise keyLt := pairwise_keyLt_of_keyLe (sortPairs_sorted l') nd2
  haveI : IsAntisymm (String × J) keyLt :=
    ⟨fun a b h h' => absurd h' (by simp [keyLt, pyStrLt_asymm h])⟩
  exact List.eq_of_perm_of_sorted p1 t1 t2

theorem normFields_eq_map : ∀ l, normFields l = l.map (fun p => (p.1, normJ p.2))
  | [] => rfl
  | (k, v) :: fs => by simp [normFields, normFields_eq_map fs]

theorem normFields_keys (l : List (String × J)) :
    (normFields l).map Prod.fst = l.map Prod.fst := by
  rw [normFields_eq_map]
  simp

theorem permEqFields_keys : ∀ fs gs, permEqFields fs gs →
    fs.map Prod.fst = gs.map Prod.fst
  | [], [], _ => rfl
  | p :: ps, q :: qs, h => by
    simp only [permEqFields] at h
    simp [h.1, permEqFields_keys ps qs h.2.2]
  | [], _ :: _, h => by simp [permEqFields] at h
  | _ :: _, [], h => by simp [permEqFields] at h

theorem permEq_norm_all : ∀ n : Nat,
    (∀ o o' : J, sizeOf o ≤ n → permEq o o' → nodupKeys o = true → normJ o = normJ o')
    ∧ (∀ xs ys : List J, sizeOf xs ≤ n → permEqList xs ys → nodupKeysList xs = true →
        normList xs = normList ys)
    ∧ (∀ fs gs : List (String × J), sizeOf fs ≤ n → permEqFields fs gs →
        nodupKeysFields fs = true → normFields fs = normFields gs) := by
  intro n
  induction n with
  | zero =>
    refine ⟨?_, ?_, ?_⟩
    · intro o _ hsz
      exact absurd hsz (by cases o <;> simp)
    · intro xs _ hsz
      exact absurd hsz (by cases xs <;> simp)
    · intro fs _ hsz
      exact absurd hsz (by cases fs <;> simp)
  | succ n ih =>
    obtain ⟨ihJ, ihL, ihF⟩ := ih
    refine ⟨?_, ?_, ?_⟩
    · intro o o' hsz hp hnd
      cases o with
      | jnull => cases o' <;> simp only [permEq] at hp <;> rfl
      | jnan => cases o' <;> simp only [permEq] at hp <;> rfl
      | jinf => cases o' <;> simp only [permEq] at hp <;> rfl
      | jninf => cases o' <;> simp only [permEq] at hp <;> rfl
      | jbool a => cases o' <;> simp only [permEq] at hp <;> rw [hp]
      | jint a => cases o' <;> simp only [permEq] at hp <;> rw [hp]
      | jstr a => cases o' <;> simp only [permEq] at hp <;> rw [hp]
      | jarr xs =>
        cases o' <;> simp only [permEq] at hp
        case jarr ys =>
          have hsz' : sizeOf xs ≤ n := by simp at hsz; omega
          have hnd' : nodupKeysList xs = true := by simpa [nodupKeys] using hnd
          simp only [normJ]
          rw [ihL xs ys hsz' hp hnd']
      | jobj fs =>
        cases o' <;> simp only [permEq] at hp
        case jobj gs =>
          obtain ⟨gs₀, hperm, hfs⟩ := hp
          have hsz' : sizeOf fs ≤ n := by simp at hsz; omega
          have hnd1 : (fs.map Prod.fst).Nodup := by
            simp only [nodupKeys, Bool.and_eq_true, decide_eq_true_eq] at hnd
            exact hnd.1
          have hnd2 : nodupKeysFields fs = true := by
            simp only [nodupKeys, Bool.and_eq_true, decide_eq_true_eq] at hnd
            exact hnd.2
          simp only [normJ]
          have h1 : normFields fs = normFields gs₀ := ihF fs gs₀ hsz' hfs hnd2
          have hkeys : (normFields gs₀).map Prod.fst = fs.map Prod.fst := by
            rw [normFields_keys, ← permEqFields_keys fs gs₀ hfs]
          have h2 : (normFields gs₀).Perm (normFields gs) := by
            rw [normFields_eq_map, normFields_eq_map]
            exact hperm.map _
          rw [h1, sortPairs_congr (normFields gs₀) (normFields gs) h2 (hkeys ▸ hnd1)]
    · intro xs ys hsz hp hnd
      cases xs with
      | nil => cases ys <;> simp only [permEqList] at hp; rfl
      | cons x xs =>
        cases ys with
        | nil => simp only [permEqList] at hp
        | cons y ys =>
          simp only [permEqList] at hp
          simp only [nodupKeysList, Bool.and_eq_true] at hnd
          have hx : sizeOf x ≤ n := by simp at hsz; omega
          have hxs : sizeOf xs ≤ n := by simp at hsz; omega
          simp only [normList]
          rw [ihJ x y hx hp.1 hnd.1, ihL xs ys hxs hp.2 hnd.2]
    · intro fs gs hsz hp hnd
      cases fs with
      | nil => cases gs <;> simp only [permEqFields] at hp; rfl
      | cons p ps =>
        cases gs with
        | nil => simp only [permEqFields] at hp
        | cons q qs =>
          simp only [permEqFields] at hp
          simp only [nodupKeysFields, Bool.and_eq_true] at hnd
          have hv : sizeOf p.2 ≤ n := by
            rcases p with ⟨k, v⟩
            simp at hsz ⊢
            omega
          have hps : sizeOf ps ≤ n := by
            rcases p with ⟨k, v⟩
            simp at hsz ⊢
            omega
          rcases p with ⟨k, v⟩
          rcases q with ⟨k', v'⟩
          simp only [normFields]
          obtain ⟨hk, hpe, hrest⟩ := hp
          have hk' : k = k' := hk
          have hpe' : permEq v v' := hpe
          rw [hk', ihJ v v' hv hpe' hnd.1, ihF ps qs hps hrest hnd.2]

theorem serList_none_aux : ∀ l : List J, (∃ v ∈ l, serJ v = none) → serList l = none := by
  intro l
  induction l with
  | nil => rintro ⟨v, hv, _⟩; simp at hv
  | cons x rest ih =>
    rintro ⟨v, hv, hn⟩
    rcases List.mem_cons.mp hv with rfl | hv
    · cases rest with
      | nil => simpa [serList] using hn
      | cons y xs => simp [serList, hn]
    · have hr : serList rest = none := ih ⟨v, hv, hn⟩
      cases rest with
      | nil => simp at hv
      | cons y xs =>
        cases hsx : serJ x with
        | none => simp [serList, hsx]
        | some a => simp [serList, hsx, hr]

theorem serFields_none_aux : ∀ l : List (String × J), (∃ p ∈ l, serJ p.2 = none) →
    serFields l = none := by
  intro l
  induction l with
  | nil => rintro ⟨p, hp, _⟩; simp at hp
  | cons q rest ih =>
    rintro ⟨p, hp, hn⟩
    rcases List.mem_cons.mp hp with rfl | hp
    · cases rest with
      | nil =>
        rcases p with ⟨k, v⟩
        simp [serFields, hn]
      | cons r xs =>
        rcases p with ⟨k, v⟩
        simp [serFields, hn]
    · have hr : serFields rest = none := ih ⟨p, hp, hn⟩
      cases rest with
      | nil => simp at hp
      | cons r xs =>
        rcases q with ⟨k, v⟩
        cases hsx : serJ v with
        | none => simp [serFields, hsx]
        | some a => simp [serFields, hsx, hr]

theorem normList_eq_map : ∀ l, normList l = l.map normJ
  | [] => rfl
  | x :: xs => by simp [normList, normList_eq_map xs]

theorem hasBad_ser_all : ∀ n : Nat,
    (∀ o, sizeOf o ≤ n → hasBad o = true → serJ (normJ o) = none)
    ∧ (∀ xs : List J, sizeOf xs ≤ n → hasBadList xs = true → ∃ x ∈ xs, serJ (normJ x) = none)
    ∧ (∀ fs : List (String × J), sizeOf fs ≤ n → hasBadFields fs = true →
        ∃ p ∈ fs, serJ (normJ p.2) = none) := by
  intro n
  induction n with
  | zero =>
    refine ⟨?_, ?_, ?_⟩
    · intro o hsz
      exact absurd hsz (by cases o <;> simp)
    · intro xs hsz
      exact absurd hsz (by cases xs <;> simp)
    · intro fs hsz
      exact absurd hsz (by cases fs <;> simp)
  | succ n ih =>
    obtain ⟨ihJ, ihL, ihF⟩ := ih
    refine ⟨?_, ?_, ?_⟩
    · intro o hsz hb
      cases o with
      | jnan => rfl
      | jinf => rfl
      | jninf => rfl
      | jnull => simp [hasBad] at hb
      | jbool b => simp [hasBad] at hb
      | jint a => simp [hasBad] at hb
      | jstr s => simp [hasBad] at hb
      | jarr xs =>
        have hsz' : sizeOf xs ≤ n := by simp at hsz; omega
        have hb' : hasBadList xs = true := by simpa [hasBad] using hb
        obtain ⟨x, hx, hn⟩ := ihL xs hsz' hb'
        have hmem : normJ x ∈ normList xs := by
          rw [normList_eq_map]
          exact List.mem_map_of_mem _ hx
        have hser : serList (normList xs) = none := serList_none_aux _ ⟨normJ x, hmem, hn⟩
        simp [normJ, serJ, hser]
      | jobj fs =>
        have hsz' : sizeOf fs ≤ n := by simp at hsz; omega
        have hb' : hasBadFields fs = true := by simpa [hasBad] using hb
        obtain ⟨p, hp, hn⟩ := ihF fs hsz' hb'
        have hmem : (p.1, normJ p.2) ∈ normFields fs := by
          rw [normFields_eq_map]
          exact List.mem_map_of_mem _ hp
        have hmem' : (p.1, normJ p.2) ∈ sortPairs (normFields fs) :=
          ((sortPairs_perm (normFields fs)).mem_iff).mpr hmem
        have hser : serFields (sortPairs (normFields fs)) = none :=
          serFields_none_aux _ ⟨(p.1, normJ p.2), hmem', by simpa using hn⟩
        simp [normJ, serJ, hser]
    · intro xs hsz hb
      cases xs with
      | nil => simp [hasBadList] at hb
      | cons x rest =>
        simp only [hasBadList, Bool.or_eq_true] at hb
        rcases hb with hb | hb
        · exact ⟨x, List.mem_cons_self x rest, ihJ x (by simp at hsz; omega) hb⟩
        · obtain ⟨v, hv, hn⟩ := ihL rest (by simp at hsz; omega) hb
          exact ⟨v, List.mem_cons_of_mem _ hv, hn⟩
    · intro fs hsz hb
      cases fs with
      | nil => simp [hasBadFields] at hb
      | cons p rest =>
        simp only [hasBadFields, Bool.or_eq_true] at hb
        rcases hb with hb | hb
        · refine ⟨p, List.mem_cons_self p rest, ?_⟩
          rcases p with ⟨k, v⟩
          exact ihJ v (by simp at hsz; omega) hb
        · obtain ⟨q, hq, hn⟩ := ihF rest (by simp at hsz; omega) hb
          exact ⟨q, List.mem_cons_of_mem _ hq, hn⟩

theorem hasBad_stabilise {o : J} (hb : hasBad o = true) : stabilise_json o = none :=
  (hasBad_ser_all (sizeOf o)).1 o (le_refl _) hb

/-- C7: `stabilise_json` is canonical: reordering the insertion order of the
keys of any object, at any nesting level, yields the same serialised bytes
(`canonical(permute(o)) == canonical(o)`); keys are sorted with Python's
string order at every object level and the output is compact; an input
containing NaN or ±infinity is rejected (`allow_nan=False` raises, modelled
as `none`). The `nodupKeys` hypothesis records that the input comes from
Python dicts, whose keys are distinct. -/
theorem stabilise_json_deterministic (o o' : J) (h : permEq o o')
    (hnd : nodupKeys o = true) :
    stabilise_json o = stabilise_json o' ∧ (hasBad o = true → stabilise_json o = none) := by
  constructor
  · unfold stabilise_json
    rw [(permEq_norm_all (sizeOf o)).1 o o' (le_refl _) h hnd]
  · intro hb
    exact hasBad_stabilise hb

/-- Concrete object with two nesting levels, keys in one insertion order. -/
def exPermA : J :=
  .jobj [("b", .jint 1), ("a", .jobj [("y", .jstr "v"), ("x", .jnull)])]

/-- The same object graph with the key insertion order permuted at both levels. -/
def exPermB : J :=
  .jobj [("a", .jobj [("x", .jnull), ("y", .jstr "v")]), ("b", .jint 1)]

/-- Witness for C7 at a concrete permuted pair of nested objects. -/
theorem stabilise_json_deterministic_witness :
    stabilise_json exPermA = stabilise_json exPermB
    ∧ (hasBad exPermA = true → stabilise_json exPermA = none) := by
  apply stabilise_json_deterministic exPermA exPermB
  · show permEq exPermA exPermB
    refine ⟨[("b", .jint 1), ("a", .jobj [("x", .jnull), ("y", .jstr "v")])],
      List.Perm.swap _ _ _, rfl, rfl, rfl, ?_, trivial⟩
    exact ⟨[("y", .jstr "v"), ("x", .jnull)], List.Perm.swap _ _ _, rfl, rfl, rfl, trivial,
      trivial⟩
  · decide

/-- `_struct_ok` (backend/transport.py): basic envelope shape check — the five
required keys `type`, `from`, `to`, `ts`, `payload` must be present and
`payload` must be a JSON object. No other field (in particular neither `sig`
nor `alg`) is consulted; signature policy belongs to the separate verifier. -/
def struct_ok (env : List (String × J)) : Bool × String :=
  match dictGet env "type" with
  | none => (false, "missing:type")
  | some _ =>
    match dictGet env "from" with
    | none => (false, "missing:from")
    | some _ =>
      match dictGet env "to" with
      | none => (false, "missing:to")
      | some _ =>
        match dictGet env "ts" with
        | none => (false, "missing:ts")
        | some _ =>
          match dictGet env "payload" with
          | none => (false, "missing:payload")
          | some (.jobj _) => (true, "")
          | some _ => (false, "payload:not_object")

/-- C10: the transport's structure check accepts exactly the JSON objects in
which `type`, `from`, `to`, `ts` and `payload` are all present and `payload`
is an object, and rejects any object missing one of those fields; an envelope
with no `sig` and no `alg` field passes the structure check. -/
theorem struct_ok_spec :
    (∀ env : List (String × J),
      (struct_ok env).1 = true ↔
        ((dictGet env "type").isSome ∧ (dictGet env "from").isSome ∧
         (dictGet env "to").isSome ∧ (dictGet env "ts").isSome ∧
         ∃ fs, dictGet env "payload" = some (.jobj fs)))
    ∧ struct_ok [("type", .jstr "MSG_DIRECT"), ("from", .jstr "u1"), ("to", .jstr "u2"),
        ("ts", .jint 1), ("payload", .jobj [])] = (true, "") := by
  constructor
  · intro env
    cases h1 : dictGet env "type" with
    | none => simp [struct_ok, h1]
    | some t =>
      cases h2 : dictGet env "from" with
      | none => simp [struct_ok, h1, h2]
      | some f =>
        cases h3 : dictGet env "to" with
        | none => simp [struct_ok, h1, h2, h3]
        | some u =>
          cases h4 : dictGet env "ts" with
          | none => simp [struct_ok, h1, h2, h3, h4]
          | some w =>
            cases h5 : dictGet env "payload" with
            | none => simp [struct_ok, h1, h2, h3, h4, h5]
            | some p => cases p <;> simp [struct_ok, h1, h2, h3, h4, h5]
  · rfl

/-- Sextet value of one base64url alphabet character (`A-Z a-z 0-9 - _`),
`none` for anything outside the alphabet. -/
def b64u_char_val (c : Char) : Option Nat :=
  if 65 ≤ charVal c ∧ charVal c ≤ 90 then some (charVal c - 65)
  else if 97 ≤ charVal c ∧ charVal c ≤ 122 then some (charVal c - 97 + 26)
  else if 48 ≤ charVal c ∧ charVal c ≤ 57 then some (charVal c - 48 + 52)
  else if c = '-' then some 62
  else if c = '_' then some 63
  else none

/-- Decode padded base64url character groups into bytes; `none` models the
`binascii.Error` the library raises on malformed input. -/
def b64_decode_groups : List Char → Option (List Nat)
  | [] => some []
  | a :: b :: c :: d :: rest =>
    (match b64u_char_val a, b64u_char_val b with
     | some va, some vb =>
       if c = '=' then
         if d = '=' ∧ rest = [] then some [va * 4 + vb / 16] else none
       else
         match b64u_char_val c with
         | some vc =>
           if d = '=' then
             if rest = [] then some [va * 4 + vb / 16, (vb % 16) * 16 + vc / 4] else none
           else
             match b64u_char_val d with
             | some vd =>
               (b64_decode_groups rest).map
                 (fun tl => (va * 4 + vb / 16) :: ((vb % 16) * 16 + vc / 4) ::
                   ((vc % 4) * 64 + vd) :: tl)
             | none => none
         | none => none
     | _, _ => none)
  | _ => none

/-- `base64url_decode` (backend/crypto/base64url.py): right-pad with `=` to a
multiple of four, then decode with the URL-safe alphabet (the library decode
is modelled by `b64_decode_groups`). -/
def base64url_decode (s : String) : Option (List Nat) :=
  b64_decode_groups (s.data ++ List.replicate ((4 - s.length % 4) % 4) '=')

/-- Envelope as seen by `make_verifier`'s inner `_verify_env`: a frame whose
`from`, `payload` and `sig` fields may be absent (a `KeyError` is caught and
flattened to `False`). -/
structure VEnv where
  etype : String := ""
  vfrom : Option String := none
  vpayload : Option (List (String × J)) := none
  vsig : Option String := none

/-- `make_verifier(pub_lookup)` (backend/envelope.py, `_verify_env`): read
`from`, `payload` and `sig`, base64url-decode the signature, look up the
sender's key and verify over the canonical payload bytes; every failure
(missing field, undecodable signature, unknown key, non-serialisable payload)
is flattened to `false`. The PSS primitive `pss_verify` and the key table
`pub_lookup` are parameters, mirroring the code's pluggable helpers. -/
def verify_env (pub_lookup : String → Option Nat)
    (pss_verify : Nat → String → List Nat → Bool) (env : VEnv) : Bool :=
  match env.vfrom, env.vpayload, env.vsig with
  | some sender, some payload, some sig_s =>
    (match base64url_decode sig_s with
     | none => false
     | some sig =>
       match pub_lookup sender with
       | none => false
       | some pub =>
         match stabilise_json (.jobj payload) with
         | none => false
         | some msg => pss_verify pub msg sig)
  | _, _, _ => false

/-- C1 counterexample: the claim says the verifier returns `true` for any
envelope whose type begins with `USER_HELLO` (signature optional for
handshake frames); the code has no such branch — a `USER_HELLO` envelope
without a `sig` field is rejected even when the sender's key is known and
the PSS primitive would accept anything. -/
theorem make_verifier_counterexample :
    verify_env (fun _ => some 0) (fun _ _ _ => true)
      { etype := "USER_HELLO", vfrom := some "u1", vpayload := some [], vsig := none } = false :=
  rfl

/-- C1 (amended): `make_verifier`'s verifier applies one uniform rule to every
envelope regardless of its `type` (no handshake exemption): it returns `false`
when `sig` is missing or when the sender's public key cannot be looked up,
and otherwise returns the result of verifying the base64url-decoded signature
over the canonical bytes of the payload. -/
theorem make_verifier_spec (pub_lookup : String → Option Nat)
    (pss_verify : Nat → String → List Nat → Bool) :
    (∀ (env : VEnv) (t₁ t₂ : String), verify_env pub_lookup pss_verify { env with etype := t₁ } =
        verify_env pub_lookup pss_verify { env with etype := t₂ })
    ∧ (∀ env : VEnv, env.vsig = none → verify_env pub_lookup pss_verify env = false)
    ∧ (∀ (env : VEnv) (sender : String), env.vfrom = some sender → pub_lookup sender = none →
        verify_env pub_lookup pss_verify env = false)
    ∧ (∀ t sender payload sig_s sig pub msg,
        base64url_decode sig_s = some sig → pub_lookup sender = some pub →
        stabilise_json (.jobj payload) = some msg →
        verify_env pub_lookup pss_verify
          { etype := t, vfrom := some sender, vpayload := some payload,
            vsig := some sig_s } = pss_verify pub msg sig) := by
  refine ⟨?_, ?_, ?_, ?_⟩
  · intro env t₁ t₂
    rcases env with ⟨t, f, p, s⟩
    cases f <;> cases p <;> cases s <;> rfl
  · intro env h
    rcases env with ⟨t, f, p, s⟩
    cases s with
    | none => cases f <;> cases p <;> rfl
    | some s => simp at h
  · intro env sender hf hl
    rcases env with ⟨t, f, p, s⟩
    cases f with
    | none => simp at hf
    | some f₀ =>
      have : f₀ = sender := by simpa using hf
      subst this
      cases p with
      | none => rfl
      | some p₀ =>
        cases s with
        | none => rfl
        | some s₀ =>
          simp only [verify_env]
          cases base64url_decode s₀ with
          | none => rfl
          | some sig => simp [hl]
  · intro t sender payload sig_s sig pub msg hdec hl hstab
    simp [verify_env, hdec, hl, hstab]

/-- Witness for C1's amended theorem: a concrete envelope whose empty-string
signature decodes to zero bytes, with a one-entry key table. -/
theorem make_verifier_spec_witness :
    (verify_env (fun _ => some 7) (fun _ _ _ => true)
        { etype := "MSG_DIRECT", vfrom := some "u1", vpayload := some [], vsig := none } = false)
    ∧ verify_env (fun _ => some 7) (fun pub msg sig => pub == 7 && msg == "\x7b\x7d" && sig.isEmpty)
        { etype := "MSG_DIRECT", vfrom := some "u1", vpayload := some [],
          vsig := some "" } = true := by
  constructor
  · exact (make_verifier_spec (fun _ => some 7) (fun _ _ _ => true)).2.1
      { etype := "MSG_DIRECT", vfrom := some "u1", vpayload := some [], vsig := none } rfl
  · rw [(make_verifier_spec (fun _ => some 7)
      (fun pub msg sig => pub == 7 && msg == "\x7b\x7d" && sig.isEmpty)).2.2.2
      "MSG_DIRECT" "u1" [] "" [] 7 "\x7b\x7d" rfl rfl rfl]
    rfl

/-- Model of the external `cryptography` primitive
`serialization.load_pem_public_key`: parsing succeeds only on input carrying
a PEM public-key header and raises (`Except.error`) on anything else; the
key object is abstracted to a `Nat` handle. -/
def load_pem_public_key (pem : String) : Except String Nat :=
  if "-----BEGIN PUBLIC KEY-----".data.isPrefixOf pem.data then .ok pem.length
  else .error "Could not deserialize key data"

/-- `load_public_key` (backend/crypto/rsa_key_management.py): str-to-bytes
conversion then the library PEM loader, which raises on unparsable input. -/
def load_public_key (pem : String) : Except String Nat :=
  load_pem_public_key pem

/-- Whether an `Except` result is a success. -/
def exceptOk {ε α : Type} : Except ε α → Bool
  | .ok _ => true
  | .error _ => false

/-- `rsa_verify_pss` (backend/crypto/rsa_pss.py): the public key is loaded
OUTSIDE the try/except; only `pub.verify` runs inside it, with every
verification error flattened to `False`. `raw_verify` models the library
PSS verify, which raises (`Except.error`) on an invalid signature. -/
def rsa_verify_pss (raw_verify : Nat → List Nat → List Nat → Except String Unit)
    (pubkey_pem : String) (message signature : List Nat) : Except String Bool :=
  match load_public_key pubkey_pem with
  | .error e => .error e
  | .ok pub => .ok (exceptOk (raw_verify pub message signature))

/-- C4 counterexample: the claim says `pss_verify` never raises and flattens
every underlying error — including an unparsable key PEM — to `false`; but
the key is loaded outside the try block, so an unparsable PEM makes the call
raise instead of returning a boolean. -/
theorem rsa_verify_pss_counterexample :
    rsa_verify_pss (fun _ _ _ => .ok ()) "not a pem" [] [] =
      .error "Could not deserialize key data" := rfl

/-- C4 (amended): `rsa_verify_pss` returns a boolean and flattens signature
verification errors to `false` whenever the key PEM parses; when the PEM
cannot be parsed, the loader's exception escapes (the load happens outside
the try/except). -/
theorem rsa_verify_pss_spec (raw_verify : Nat → List Nat → List Nat → Except String Unit)
    (pem : String) (message signature : List Nat) :
    (∀ pub, load_public_key pem = .ok pub →
      rsa_verify_pss raw_verify pem message signature =
        .ok (exceptOk (raw_verify pub message signature)))
    ∧ (∀ e, load_public_key pem = .error e →
      rsa_verify_pss raw_verify pem message signature = .error e) := by
  constructor
  · intro pub h
    simp [rsa_verify_pss, h]
  · intro e h
    simp [rsa_verify_pss, h]

/-- Witness for C4's amended theorem: a parsable PEM with a raw verifier that
rejects the signature yields `ok false`. -/
theorem rsa_verify_pss_spec_witness :
    rsa_verify_pss (fun _ _ _ => .error "InvalidSignature") "-----BEGIN PUBLIC KEY-----"
      [1] [2] = .ok false :=
  (rsa_verify_pss_spec (fun _ _ _ => .error "InvalidSignature") "-----BEGIN PUBLIC KEY-----"
    [1] [2]).1 26 rfl

/-- Outer frame (envelope) as built by the backend: the five standard fields,
plus `sig`/`alg` which handshake frames may omit. Payloads are JSON objects. -/
structure Env where
  etype : String := ""
  efrom : String := ""
  eto : String := ""
  ts : Int := 0
  payload : List (String × J) := []
  sig : Option String := none
  alg : Option String := none

/-- Dedupe fingerprint `"{ts}|{from}|{to}|{hash(canonical(payload))}"`
(`_seen_key` in backend/routing.py, `make_seen_key` in
backend/server/peer_comm_utilities.py). `hashFn` stands for the SHA-256 hex
digest of the canonical payload bytes (an external primitive). -/
def seen_key (hashFn : List (String × J) → String) (e : Env) : String :=
  toString e.ts ++ "|" ++ e.efrom ++ "|" ++ e.eto ++ "|" ++ hashFn e.payload

/-- Default `dedup_max` of the Router dataclass (backend/routing.py). -/
def dedup_max_default : Nat := 10000

/-- The Router's bounded dedupe store: a membership set plus the insertion
queue `_seen_q` (backend/routing.py). -/
structure DedupState where
  seen : Finset String := ∅
  seenQ : List String := []

/-- `Router._remember_key`: add the key to the set, append it to the queue;
if the queue now exceeds `dedup_max`, pop the oldest queue entry and discard
that key from the set. -/
def remember_key (dmax : Nat) (key : String) (st : DedupState) : DedupState :=
  if dmax < (st.seenQ ++ [key]).length then
    { seen := (insert key st.seen).erase ((st.seenQ ++ [key]).headD ""),
      seenQ := (st.seenQ ++ [key]).tail }
  else
    { seen := insert key st.seen, seenQ := st.seenQ ++ [key] }

/-- `Router.already_seen`: true iff the frame's fingerprint is in the set;
otherwise the fingerprint is recorded and false is returned. -/
def already_seen (hashFn : List (String × J) → String) (dmax : Nat) (frame : Env)
    (st : DedupState) : Bool × DedupState :=
  let key := seen_key hashFn frame
  if key ∈ st.seen then (true, st) else (false, remember_key dmax key st)

/-- `Router.remember`. -/
def remember (hashFn : List (String × J) → String) (dmax : Nat) (frame : Env)
    (st : DedupState) : DedupState :=
  remember_key dmax (seen_key hashFn frame) st

/-- One dedupe-store operation: an `already_seen` query or a `remember`. -/
inductive DedupOp where
  | query (f : Env)
  | record (f : Env)

/-- State effect of one dedupe operation. -/
def dedup_step (hashFn : List (String × J) → String) (dmax : Nat)
    (st : DedupState) (op : DedupOp) : DedupState :=
  match op with
  | .query f => (already_seen hashFn dmax f st).2
  | .record f => remember hashFn dmax f st

/-- Run a sequence of dedupe operations from the Router's initial (empty)
store. -/
def run_dedup (hashFn : List (String × J) → String) (dmax : Nat)
    (ops : List DedupOp) : DedupState :=
  ops.foldl (dedup_step hashFn dmax) {}

theorem remember_key_inv (dmax : Nat) (key : String) (st : DedupState)
    (h1 : st.seenQ.length ≤ dmax) (h2 : st.seen ⊆ st.seenQ.toFinset) :
    (remember_key dmax key st).seenQ.length ≤ dmax ∧
    (remember_key dmax key st).seen ⊆ (remember_key dmax key st).seenQ.toFinset := by
  constructor
  · unfold remember_key
    split
    next hc =>
      simp only [List.length_tail, List.length_append, List.length_singleton]
      omega
    next hc =>
      simp only [List.length_append, List.length_singleton] at hc ⊢
      omega
  · obtain ⟨sn, q⟩ := st
    simp only at h2
    unfold remember_key
    split
    next hc =>
      intro x hx
      simp only [Finset.mem_erase, Finset.mem_insert] at hx
      cases q with
      | nil =>
        simp only [List.nil_append, List.headD_cons, List.tail_cons] at hx ⊢
        rcases hx.2 with rfl | hxs
        · exact absurd rfl hx.1
        · exact absurd (h2 hxs) (by simp)
      | cons a rest =>
        simp only [List.cons_append, List.headD_cons, List.tail_cons] at hx ⊢
        rcases hx.2 with rfl | hxs
        · simp
        · have hm := h2 hxs
          simp only [List.toFinset_cons, Finset.mem_insert, List.mem_toFinset] at hm
          rcases hm with rfl | hmem
          · exact absurd rfl hx.1
          · simp [hmem]
    next hc =>
      intro x hx
      simp only [Finset.mem_insert] at hx
      simp only [List.toFinset_append, List.toFinset_cons, List.toFinset_nil]
      rcases hx with rfl | hxs
      · simp
      · have hm := h2 hxs
        simp only [List.mem_toFinset] at hm
        simp [hm]

theorem dedup_step_inv (hashFn : List (String × J) → String) (dmax : Nat)
    (st : DedupState) (op : DedupOp)
    (h1 : st.seenQ.length ≤ dmax) (h2 : st.seen ⊆ st.seenQ.toFinset) :
    (dedup_step hashFn dmax st op).seenQ.length ≤ dmax ∧
    (dedup_step hashFn dmax st op).seen ⊆ (dedup_step hashFn dmax st op).seenQ.toFinset := by
  cases op with
  | query f =>
    by_cases hm : seen_key hashFn f ∈ st.seen
    · have heq : dedup_step hashFn dmax st (DedupOp.query f) = st := by
        simp [dedup_step, already_seen, hm]
      rw [heq]
      exact ⟨h1, h2⟩
    · have heq : dedup_step hashFn dmax st (DedupOp.query f) =
          remember_key dmax (seen_key hashFn f) st := by
        simp [dedup_step, already_seen, hm]
      rw [heq]
      exact remember_key_inv dmax _ st h1 h2
  | record f =>
    exact remember_key_inv dmax _ st h1 h2

theorem run_dedup_inv (hashFn : List (String × J) → String) (dmax : Nat)
    (ops : List DedupOp) :
    (run_dedup hashFn dmax ops).seenQ.length ≤ dmax ∧
    (run_dedup hashFn dmax ops).seen ⊆ (run_dedup hashFn dmax ops).seenQ.toFinset := by
  have step : ∀ (l : List DedupOp) (st : DedupState),
      st.seenQ.length ≤ dmax → st.seen ⊆ st.seenQ.toFinset →
      (l.foldl (dedup_step hashFn dmax) st).seenQ.length ≤ dmax ∧
      (l.foldl (dedup_step hashFn dmax) st).seen ⊆
        (l.foldl (dedup_step hashFn dmax) st).seenQ.toFinset := by
    intro l
    induction l with
    | nil => intro st hl hs; exact ⟨hl, hs⟩
    | cons op rest ih =>
      intro st hl hs
      simp only [List.foldl_cons]
      obtain ⟨a, b⟩ := dedup_step_inv hashFn dmax st op hl hs
      exact ih _ a b
  exact step ops {} (by simp) (by simp)

/-- C3: the Router's dedupe store holds at most `dedup_max` (default 10000)
fingerprints after any sequence of `already_seen`/`remember` operations; an
insertion that pushes the queue past capacity evicts the oldest (first)
queued fingerprint; and `already_seen` returns true exactly when the frame's
fingerprint is in the store, otherwise recording it and returning false. -/
theorem dedupe_spec :
    (∀ (hashFn : List (String × J) → String) (dmax : Nat) (frame : Env) (st : DedupState),
      ((already_seen hashFn dmax frame st).1 = true ↔ seen_key hashFn frame ∈ st.seen)
      ∧ (seen_key hashFn frame ∈ st.seen → already_seen hashFn dmax frame st = (true, st))
      ∧ (seen_key hashFn frame ∉ st.seen →
          already_seen hashFn dmax frame st =
            (false, remember_key dmax (seen_key hashFn frame) st)))
    ∧ (∀ (hashFn : List (String × J) → String) (dmax : Nat) (ops : List DedupOp),
        (run_dedup hashFn dmax ops).seen.card ≤ dmax
        ∧ (run_dedup hashFn dmax ops).seenQ.length ≤ dmax)
    ∧ (∀ (dmax : Nat) (key old : String) (rest : List String) (st : DedupState),
        st.seenQ = old :: rest → dmax ≤ st.seenQ.length →
        remember_key dmax key st =
          { seen := (insert key st.seen).erase old, seenQ := rest ++ [key] })
    ∧ dedup_max_default = 10000 := by
  refine ⟨?_, ?_, ?_, rfl⟩
  · intro hashFn dmax frame st
    refine ⟨?_, ?_, ?_⟩
    · by_cases hm : seen_key hashFn frame ∈ st.seen <;> simp [already_seen, hm]
    · intro hm
      simp [already_seen, hm]
    · intro hm
      simp [already_seen, hm]
  · intro hashFn dmax ops
    obtain ⟨hlen, hsub⟩ := run_dedup_inv hashFn dmax ops
    refine ⟨?_, hlen⟩
    calc (run_dedup hashFn dmax ops).seen.card
        ≤ (run_dedup hashFn dmax ops).seenQ.toFinset.card := Finset.card_le_card hsub
      _ ≤ (run_dedup hashFn dmax ops).seenQ.length := List.toFinset_card_le _
      _ ≤ dmax := hlen
  · intro dmax key old rest st hq hlen
    rw [hq] at hlen
    simp only [List.length_cons] at hlen
    have hc : dmax < ((old :: rest) ++ [key]).length := by
      simp only [List.cons_append, List.length_cons, List.length_append, List.length_singleton]
      omega
    simp only [remember_key, hq, if_pos hc]
    simp

/-- Witness for C3 at a concrete store: capacity 1, one queued fingerprint,
a query for a fresh frame, and an eviction of the oldest entry. -/
theorem dedupe_spec_witness :
    (already_seen (fun _ => "h") 1 { ts := 3 } { seen := {"k"}, seenQ := ["k"] } =
      (false, remember_key 1 (seen_key (fun _ => "h") { ts := 3 })
        { seen := {"k"}, seenQ := ["k"] }))
    ∧ remember_key 1 "b" { seen := {"k"}, seenQ := ["k"] } =
      { seen := (insert "b" ({"k"} : Finset String)).erase "k", seenQ := ["b"] } := by
  constructor
  · exact (dedupe_spec.1 (fun _ => "h") 1 { ts := 3 }
      { seen := {"k"}, seenQ := ["k"] }).2.2 (by decide)
  · exact dedupe_spec.2.2.1 1 "b" "k" [] { seen := {"k"}, seenQ := ["k"] } rfl (by decide)

/-- Default per-user hold-queue capacity (`_pending_max_per_user`,
backend/routing.py). -/
def pending_max_per_user : Nat := 100

/-- An awaited Router send: `send_to_local(uid, env)` or
`send_to_peer(sid, env)`. -/
inductive SendAction where
  | toLocal (uid : String) (env : Env)
  | toPeer (sid : String) (env : Env)

/-- Server-side mutable state reached through the Router and the handlers'
context: peer links, directory tables, the context dedupe pair and the hold
queue. Connection handles (websockets) are abstracted to `Nat`. -/
structure St where
  server_id : String := ""
  peers : List (String × Nat) := []
  peer_last_seen : List (String × Int) := []
  user_pubkeys : List (String × String) := []
  user_advertise_envelopes : List (String × Env) := []
  local_users : List (String × Nat) := []
  user_locations : List (String × String) := []
  pending : List (String × List Env) := []
  server_privkey : Option Nat := none
  seen_ids : Finset String := ∅
  seen_queue : List String := []

/-- `Router._mk_env` (backend/routing.py): build the outer envelope from this
node; when a server key is configured, sign the payload (`signFn` models the
Part-4 signing primitive) and attach `sig`/`alg`. `sign_payload` returns the
payload object unchanged, so the payload field is exactly the one passed in. -/
def mk_env (signFn : Nat → List (String × J) → String) (st : St) (now : Int)
    (msg_type to_id : String) (payload : List (String × J)) : Env :=
  match st.server_privkey with
  | none =>
    { etype := msg_type, efrom := st.server_id, eto := to_id, ts := now, payload := payload }
  | some k =>
    { etype := msg_type, efrom := st.server_id, eto := to_id, ts := now, payload := payload,
      sig := some (signFn k payload), alg := some "PS256" }

/-- Hold-queue append of `Router._route_now` on the pending map: fetch (or
create) the target's queue; if it is at capacity, pop the oldest entry;
append the frame. -/
def enqueue_list (pending : List (String × List Env)) (target : String) (frame : Env) :
    List (String × List Env) :=
  dictSet pending target
    (if pending_max_per_user ≤ ((dictGet pending target).getD []).length then
      ((dictGet pending target).getD []).drop 1 ++ [frame]
    else
      ((dictGet pending target).getD []) ++ [frame])

/-- Hold-queue append of `Router._route_now`, as a state update. -/
def enqueue_pending (st : St) (target : String) (frame : Env) : St :=
  { st with pending := enqueue_list st.pending target frame }

theorem enqueue_pending_pending (st : St) (target : String) (frame : Env) :
    (enqueue_pending st target frame).pending = enqueue_list st.pending target frame := rfl

/-- `Router._route_now` / `route_to_user` (backend/routing.py): an empty
target fails; a `"local"` location sends exactly one `USER_DELIVER` built by
`_mk_env`; a location naming a connected peer sends one `PEER_DELIVER` whose
payload is the frame's payload plus `user_id`; otherwise the frame may be
queued. Returns (delivered?, sends performed, updated state). -/
def route_now (signFn : Nat → List (String × J) → String) (now : Int) (st : St)
    (target : String) (frame : Env) (allow_queue : Bool) :
    Bool × List SendAction × St :=
  if target = "" then (false, [], st)
  else if dictGet st.user_locations target = some "local" then
    (true,
      [SendAction.toLocal target (mk_env signFn st now "USER_DELIVER" target frame.payload)],
      st)
  else
    match dictGet st.user_locations target with
    | some host_loc =>
      if host_loc ≠ "" ∧ (dictGet st.peers host_loc).isSome ∧ host_loc ≠ "local" then
        (true,
          [SendAction.toPeer host_loc
            (mk_env signFn st now "PEER_DELIVER" host_loc
              (dictSet frame.payload "user_id" (.jstr target)))],
          st)
      else if allow_queue then (false, [], enqueue_pending st target frame)
      else (false, [], st)
    | none =>
      if allow_queue then (false, [], enqueue_pending st target frame)
      else (false, [], st)

/-- `Router.record_presence`: install the location, then drain the user's
hold queue, re-submitting each frame with `allow_queue=false`; the re-routes
cannot queue again, so they only emit sends. -/
def record_presence (signFn : Nat → List (String × J) → String) (now : Int)
    (st : St) (user location : String) : St × List SendAction :=
  match dictGet st.pending user with
  | none => ({ st with user_locations := dictSet st.user_locations user location }, [])
  | some [] => ({ st with user_locations := dictSet st.user_locations user location }, [])
  | some q =>
    let st2 : St :=
      { st with user_locations := dictSet st.user_locations user location,
                pending := dictSet st.pending user [] }
    (st2, q.foldl (fun acc f => acc ++ (route_now signFn now st2 user f false).2.1) [])

/-- C2: `route_to_user` returns false and sends nothing when the target uid
is the empty string; when `user_locations[uid] == "local"` it performs
exactly one `send_to_local` of a new `USER_DELIVER` envelope whose `from` is
the router's `server_id`, whose `to` is the uid and whose payload equals the
frame's payload, and it returns true. -/
theorem route_to_user_spec (signFn : Nat → List (String × J) → String) (now : Int)
    (st : St) (target : String) (frame : Env) (aq : Bool) :
    (target = "" → route_now signFn now st target frame aq = (false, [], st))
    ∧ (target ≠ "" → dictGet st.user_locations target = some "local" →
        route_now signFn now st target frame aq =
          (true,
            [SendAction.toLocal target
              (mk_env signFn st now "USER_DELIVER" target frame.payload)],
            st)
        ∧ (mk_env signFn st now "USER_DELIVER" target frame.payload).etype = "USER_DELIVER"
        ∧ (mk_env signFn st now "USER_DELIVER" target frame.payload).efrom = st.server_id
        ∧ (mk_env signFn st now "USER_DELIVER" target frame.payload).eto = target
        ∧ (mk_env signFn st now "USER_DELIVER" target frame.payload).payload = frame.payload)
    := by
  constructor
  · intro h
    simp [route_now, h]
  · intro h hl
    refine ⟨by simp [route_now, h, hl], ?_, ?_, ?_, ?_⟩ <;>
      (unfold mk_env; cases st.server_privkey <;> rfl)

/-- Witness for C2: a router with a signing key and one local user delivers
a concrete frame locally. -/
theorem route_to_user_spec_witness :
    route_now (fun _ _ => "SG") 9
      { server_id := "S1", user_locations := [("u1", "local")], server_privkey := some 5 }
      "u1" { etype := "MSG_DIRECT", efrom := "u9", eto := "u1", ts := 1,
             payload := [("ciphertext", .jstr "X")] } true =
      (true,
        [SendAction.toLocal "u1"
          (mk_env (fun _ _ => "SG")
            { server_id := "S1", user_locations := [("u1", "local")], server_privkey := some 5 }
            9 "USER_DELIVER" "u1" [("ciphertext", .jstr "X")])],
        { server_id := "S1", user_locations := [("u1", "local")], server_privkey := some 5 })
    ∧ (mk_env (fun _ _ => "SG")
        { server_id := "S1", user_locations := [("u1", "local")], server_privkey := some 5 }
        9 "USER_DELIVER" "u1" [("ciphertext", .jstr "X")]).efrom = "S1" := by
  have h := (route_to_user_spec (fun _ _ => "SG") 9
    { server_id := "S1", user_locations := [("u1", "local")], server_privkey := some 5 }
    "u1" { etype := "MSG_DIRECT", efrom := "u9", eto := "u1", ts := 1,
           payload := [("ciphertext", .jstr "X")] } true).2 (by decide) rfl
  exact ⟨h.1, h.2.2.1⟩

/-- One `route_to_user` call: the target uid, the frame, the `allow_queue`
flag and the time at which it happens. -/
structure RouteCall where
  target : String
  frame : Env
  allow_queue : Bool
  now : Int

/-- A sequence of `route_to_user` calls acting on router state. -/
def route_calls (signFn : Nat → List (String × J) → String)
    (calls : List RouteCall) (st : St) : St :=
  calls.foldl (fun s c => (route_now signFn c.now s c.target c.frame c.allow_queue).2.2) st

theorem route_now_state (signFn : Nat → List (String × J) → String) (now : Int)
    (st : St) (target : String) (frame : Env) (aq : Bool) :
    (route_now signFn now st target frame aq).2.2 = st ∨
    (route_now signFn now st target frame aq).2.2 = enqueue_pending st target frame := by
  by_cases h1 : target = ""
  · left; simp [route_now, h1]
  · by_cases h2 : dictGet st.user_locations target = some "local"
    · left; simp [route_now, h1, h2]
    · cases h3 : dictGet st.user_locations target with
      | none =>
        cases aq with
        | true => right; simp [route_now, h1, h2, h3]
        | false => left; simp [route_now, h1, h2, h3]
      | some host =>
        have h5 : host ≠ "local" := fun hh => h2 (by rw [h3, hh])
        by_cases h4 : host ≠ "" ∧ (dictGet st.peers host).isSome ∧ host ≠ "local"
        · left; simp [route_now, h1, h2, h3, h4]
        · have h6 : ¬(host ≠ "" ∧ (dictGet st.peers host).isSome = true) :=
            fun hh => h4 ⟨hh.1, hh.2, h5⟩
          cases aq with
          | true => right; simp [route_now, h1, h2, h3, h5, h6]
          | false => left; simp [route_now, h1, h2, h3, h5, h6]

theorem enqueue_pending_bound (st : St) (target : String) (frame : Env)
    (h : ∀ uid, ((dictGet st.pending uid).getD []).length ≤ pending_max_per_user) :
    ∀ uid, ((dictGet (enqueue_pending st target frame).pending uid).getD []).length ≤
      pending_max_per_user := by
  intro uid
  rw [enqueue_pending_pending]
  unfold enqueue_list
  by_cases he : uid = target
  · subst he
    rw [dictGet_dictSet_self]
    simp only [Option.getD_some]
    have hq := h uid
    simp only [pending_max_per_user] at hq ⊢
    split
    next hfull =>
      simp only [List.length_append, List.length_singleton, List.length_drop]
      omega
    next hfull =>
      simp only [List.length_append, List.length_singleton]
      omega
  · rw [dictGet_dictSet_ne _ _ _ _ (fun hh => he hh.symm)]
    exact h uid

/-- C8: starting from the Router's initial state (no hold queues), after any
sequence of `route_to_user` calls no user's hold queue exceeds
`_pending_max_per_user` (100) frames; and when an enqueue hits a queue at
capacity, the oldest (head) frame is the one discarded. -/
theorem hold_queue_spec :
    (∀ (signFn : Nat → List (String × J) → String) (calls : List RouteCall) (st₀ : St),
      st₀.pending = [] →
      ∀ uid, ((dictGet (route_calls signFn calls st₀).pending uid).getD []).length ≤
        pending_max_per_user)
    ∧ (∀ (st : St) (target : String) (frame : Env) (q : List Env),
        dictGet st.pending target = some q → q.length = pending_max_per_user →
        dictGet (enqueue_pending st target frame).pending target =
          some (q.drop 1 ++ [frame]))
    ∧ pending_max_per_user = 100 := by
  refine ⟨?_, ?_, rfl⟩
  · intro signFn calls st₀ h0
    have step : ∀ (l : List RouteCall) (st : St),
        (∀ uid, ((dictGet st.pending uid).getD []).length ≤ pending_max_per_user) →
        ∀ uid, ((dictGet (route_calls signFn l st).pending uid).getD []).length ≤
          pending_max_per_user := by
      intro l
      induction l with
      | nil => intro st h uid; exact h uid
      | cons c rest ih =>
        intro st h uid
        unfold route_calls
        simp only [List.foldl_cons]
        have hnext :
            ∀ u, ((dictGet (route_now signFn c.now st c.target c.frame
              c.allow_queue).2.2.pending u).getD []).length ≤ pending_max_per_user := by
          rcases route_now_state signFn c.now st c.target c.frame c.allow_queue with hs | hs
          · rw [hs]; exact h
          · rw [hs]; exact enqueue_pending_bound st c.target c.frame h
        exact ih _ hnext uid
    apply step calls st₀
    intro uid
    rw [h0]
    simp [dictGet]
  · intro st target frame q hq hlen
    rw [enqueue_pending_pending]
    unfold enqueue_list
    rw [hq]
    simp only [Option.getD_some]
    rw [dictGet_dictSet_self, if_pos (le_of_eq hlen.symm)]

/-- Witness for C8: one call that queues a frame for an unknown user, and an
overflow append onto a queue already holding 100 frames. -/
theorem hold_queue_spec_witness :
    (∀ uid, ((dictGet (route_calls (fun _ _ => "")
        [{ target := "u1", frame := { etype := "MSG_DIRECT" }, allow_queue := true,
           now := 3 }] {}).pending uid).getD []).length ≤ pending_max_per_user)
    ∧ dictGet (enqueue_pending
        { pending := [("u2", List.replicate 100 ({} : Env))] } "u2"
        { etype := "FILE_CHUNK" }).pending "u2" =
      some ((List.replicate 100 ({} : Env)).drop 1 ++ [{ etype := "FILE_CHUNK" }]) := by
  constructor
  · exact hold_queue_spec.1 (fun _ _ => "")
      [{ target := "u1", frame := { etype := "MSG_DIRECT" }, allow_queue := true, now := 3 }]
      {} rfl
  · exact hold_queue_spec.2.1 { pending := [("u2", List.replicate 100 ({} : Env))] } "u2"
      { etype := "FILE_CHUNK" } (List.replicate 100 ({} : Env)) rfl
      (by simp [pending_max_per_user])

/-- One step of `Router.reap_peers`: if the snapshot entry is stale, append
its id to the result and pop it from both maps. -/
def reap_step (now dead_after : Int)
    (acc : List String × List (String × Nat) × List (String × Int))
    (p : String × Int) : List String × List (String × Nat) × List (String × Int) :=
  if dead_after < now - p.2 then
    (acc.1 ++ [p.1], dictPop acc.2.1 p.1, dictPop acc.2.2 p.1)
  else acc

/-- `Router.reap_peers` (backend/routing.py): walk a snapshot of
`peer_last_seen`; every peer whose last-seen lies more than `dead_after`
seconds before `now` is added to the returned list and removed from both
`peers` and `peer_last_seen`. Returns (removed ids, peers, peer_last_seen). -/
def reap_peers (now dead_after : Int) (peers : List (String × Nat))
    (last_seen : List (String × Int)) :
    List String × List (String × Nat) × List (String × Int) :=
  last_seen.foldl (reap_step now dead_after) ([], peers, last_seen)

theorem reap_fold_fst (now dead_after : Int) :
    ∀ (l : List (String × Int)) (acc : List String × List (String × Nat) × List (String × Int)),
      (l.foldl (reap_step now dead_after) acc).1 =
        acc.1 ++ (l.filter (fun p => decide (dead_after < now - p.2))).map Prod.fst := by
  intro l
  induction l with
  | nil => intro acc; simp
  | cons p rest ih =>
    intro acc
    simp only [List.foldl_cons]
    by_cases hc : dead_after < now - p.2
    · simp [reap_step, hc, ih]
    · simp [reap_step, hc, ih]

theorem reap_fold_removed (now dead_after : Int) :
    ∀ (l : List (String × Int)) (acc : List String × List (String × Nat) × List (String × Int)),
      (∀ sid ∈ acc.1, dictGet acc.2.1 sid = none ∧ dictGet acc.2.2 sid = none) →
      ∀ sid ∈ (l.foldl (reap_step now dead_after) acc).1,
        dictGet (l.foldl (reap_step now dead_after) acc).2.1 sid = none ∧
        dictGet (l.foldl (reap_step now dead_after) acc).2.2 sid = none := by
  intro l
  induction l with
  | nil => intro acc h; exact h
  | cons p rest ih =>
    intro acc h
    simp only [List.foldl_cons]
    apply ih
    intro sid hsid
    unfold reap_step at hsid ⊢
    by_cases hc : dead_after < now - p.2
    · simp only [hc, if_true] at hsid ⊢
      rcases List.mem_append.mp hsid with hold | hnew
      · obtain ⟨ha, hb⟩ := h sid hold
        exact ⟨dictGet_dictPop_none _ _ _ ha, dictGet_dictPop_none _ _ _ hb⟩
      · simp only [List.mem_singleton] at hnew
        subst hnew
        exact ⟨dictGet_dictPop_self _ _, dictGet_dictPop_self _ _⟩
    · simp only [hc, if_false] at hsid ⊢
      exact h sid hsid

/-- C9: `reap_peers(dead_after)` returns exactly the server ids whose
last-seen timestamp is older than `dead_after` seconds before now, and
removes each returned id from both `peers` and `peer_last_seen`, so that
afterwards no returned id is present in either map. -/
theorem reap_peers_spec (now dead_after : Int) (peers : List (String × Nat))
    (last_seen : List (String × Int)) :
    (reap_peers now dead_after peers last_seen).1 =
      (last_seen.filter (fun p => decide (dead_after < now - p.2))).map Prod.fst
    ∧ ∀ sid ∈ (reap_peers now dead_after peers last_seen).1,
        dictGet (reap_peers now dead_after peers last_seen).2.1 sid = none ∧
        dictGet (reap_peers now dead_after peers last_seen).2.2 sid = none := by
  constructor
  · simpa using reap_fold_fst now dead_after last_seen ([], peers, last_seen)
  · exact reap_fold_removed now dead_after last_seen ([], peers, last_seen)
      (by intro sid hsid; simp at hsid)

/-- Witness for C9: one stale peer (last seen 60 seconds ago, threshold 45)
and one fresh peer; the stale one is returned and gone from both maps. -/
theorem reap_peers_spec_witness :
    (reap_peers 1000 45 [("P", 7), ("Q", 8)] [("P", 940), ("Q", 990)]).1 = ["P"]
    ∧ dictGet (reap_peers 1000 45 [("P", 7), ("Q", 8)] [("P", 940), ("Q", 990)]).2.1 "P" = none
    ∧ dictGet (reap_peers 1000 45 [("P", 7), ("Q", 8)] [("P", 940), ("Q", 990)]).2.2 "P"
      = none := by
  have h := reap_peers_spec 1000 45 [("P", 7), ("Q", 8)] [("P", 940), ("Q", 990)]
  refine ⟨by rw [h.1]; rfl, ?_, ?_⟩
  · exact (h.2 "P" (by rw [h.1]; decide)).1
  · exact (h.2 "P" (by rw [h.1]; decide)).2

/-- Duplicate-connection tie-break at the head of `handle_SERVER_HELLO_JOIN`
(backend/server/handlers/server_hello_join.py): when the joining `peer_id`
already has a different live link in `ctx.peers`, compare ids: if
`ctx.server_id < peer_id` the new socket is closed with code 1000 and the
handler returns (the existing link is kept); otherwise the old socket is
closed with code 1000 and the new one is registered. Returns (closed sockets
with close codes, updated peer map). -/
def tie_break_join (server_id : String) (peers : List (String × Nat))
    (peer_id : String) (ws : Nat) : List (Nat × Nat) × List (String × Nat) :=
  match dictGet peers peer_id with
  | some old_ws =>
    if old_ws ≠ ws then
      if pyStrLt server_id peer_id = true then ([(ws, 1000)], peers)
      else ([(old_ws, 1000)], dictSet peers peer_id ws)
    else ([], dictSet peers peer_id ws)
  | none => ([], dictSet peers peer_id ws)

/-- C6: when a SERVER_HELLO_JOIN arrives from a `peer_id` that already has a
different live link, exactly one of the two connections is closed with code
1000; which link survives is decided by comparing the local `server_id` with
`peer_id` (if `server_id < peer_id` the existing link is kept and the new
socket closed, otherwise the new link replaces the closed old one); and the
peer map afterwards holds at most one entry for that `peer_id`. -/
theorem tie_break_spec (server_id : String) (peers : List (String × Nat))
    (peer_id : String) (ws old_ws : Nat)
    (hdup : dictGet peers peer_id = some old_ws) (hne : old_ws ≠ ws)
    (hkeys : (peers.map Prod.fst).Nodup) :
    (tie_break_join server_id peers peer_id ws).1 =
      [((if pyStrLt server_id peer_id = true then ws else old_ws), 1000)]
    ∧ dictGet (tie_break_join server_id peers peer_id ws).2 peer_id =
      some (if pyStrLt server_id peer_id = true then old_ws else ws)
    ∧ ((tie_break_join server_id peers peer_id ws).2.filter
        (fun p => p.1 = peer_id)).length ≤ 1 := by
  unfold tie_break_join
  rw [hdup]
  simp only [hne, if_true, ne_eq, not_false_eq_true]
  by_cases hlt : pyStrLt server_id peer_id = true
  · simp only [hlt, if_true]
    exact ⟨trivial, hdup, filter_key_le_one_of_nodup peers peer_id hkeys⟩
  · simp only [hlt, if_false]
    refine ⟨rfl, dictGet_dictSet_self _ _ _, ?_⟩
    exact filter_key_le_one_of_nodup _ peer_id
      (dictSet_keys_nodup peers peer_id ws hkeys (by rw [hdup]; rfl))

/-- Witness for C6: node "B" receives a duplicate join from peer "A";
"B" < "A" is false, so the old socket 1 is closed and the new socket 2 kept. -/
theorem tie_break_spec_witness :
    (tie_break_join "B" [("A", 1)] "A" 2).1 =
      [((if pyStrLt "B" "A" = true then 2 else 1), 1000)]
    ∧ dictGet (tie_break_join "B" [("A", 1)] "A" 2).2 "A" =
      some (if pyStrLt "B" "A" = true then 1 else 2)
    ∧ ((tie_break_join "B" [("A", 1)] "A" 2).2.filter (fun p => p.1 = "A")).length ≤ 1 :=
  tie_break_spec "B" [("A", 1)] "A" 2 1 rfl (by decide) (by decide)

/-- A message emitted by a protocol handler: an error reply, an ACK, a
fan-out copy to a local user or to a peer, or a Router send produced while
draining a hold queue. -/
inductive OutMsg where
  | err (code : String) (detail : String)
  | ack (msg_ref : String)
  | toLocalUser (uid : String)
  | toPeerSid (sid : String)
  | routed (s : SendAction)

/-- String value of a payload field (the handlers' `payload.get(k)` for the
schema's string fields; an absent or non-string field yields `""`, falsy
exactly like Python's `None`). -/
def jGetStr (payload : List (String × J)) (k : String) : String :=
  match dictGet payload k with
  | some (.jstr s) => s
  | _ => ""

/-- `is_valid_user_advertise` (backend/server/handlers/user_advertise.py):
`bool(payload.get("user_id") and payload.get("pubkey") and sig_b64)`. -/
def is_valid_user_advertise (payload : List (String × J)) (sig_b64 : String) : Bool :=
  (!(jGetStr payload "user_id" == "")) && (!(jGetStr payload "pubkey" == ""))
    && (!(sig_b64 == ""))

/-- `remember_seen` (backend/server/peer_comm_utilities.py): membership test
on `ctx.seen_ids`; on a miss, record the key in the set and in the
`maxlen=10000` deque (which silently drops its oldest entry when full). -/
def remember_seen (st : St) (key : String) : Bool × St :=
  if key ∈ st.seen_ids then (true, st)
  else
    (false,
      { st with
          seen_ids := insert key st.seen_ids,
          seen_queue :=
            if 10000 < (st.seen_queue ++ [key]).length then (st.seen_queue ++ [key]).drop 1
            else st.seen_queue ++ [key] })

/-- `handle_USER_ADVERTISE` (backend/server/handlers/user_advertise.py):
validate the fields, verify the enclosed payload signature against the
advertised pubkey (`verifySig` models `verify_user_advertise_signature`),
dedupe by fingerprint; then store the pubkey, cache the envelope, register
the ingress socket as the user's local link, record presence as `"local"`
through the Router, ACK, and fan the envelope out to the other local users
and to every peer except the ingress socket. -/
def handle_USER_ADVERTISE (verifySig : List (String × J) → String → String → Bool)
    (hashFn : List (String × J) → String) (signFn : Nat → List (String × J) → String)
    (now : Int) (st : St) (ws : Nat) (frame : Env) : St × List OutMsg :=
  if is_valid_user_advertise frame.payload (frame.sig.getD "") = false then
    (st, [OutMsg.err "BAD_KEY" "missing fields"])
  else if verifySig frame.payload (frame.sig.getD "") (jGetStr frame.payload "pubkey")
      = false then
    (st, [OutMsg.err "INVALID_SIG" "bad signature"])
  else
    match remember_seen st (seen_key hashFn frame) with
    | (true, st1) => (st1, [])
    | (false, st1) =>
      let st2 : St :=
        { st1 with
            user_pubkeys := dictSet st1.user_pubkeys (jGetStr frame.payload "user_id")
              (jGetStr frame.payload "pubkey"),
            user_advertise_envelopes := dictSet st1.user_advertise_envelopes
              (jGetStr frame.payload "user_id") frame,
            local_users := dictSet st1.local_users (jGetStr frame.payload "user_id") ws }
      let rp := record_presence signFn now st2 (jGetStr frame.payload "user_id") "local"
      (rp.1,
        rp.2.map OutMsg.routed ++ [OutMsg.ack "USER_ADVERTISE"]
          ++ (rp.1.local_users.filter (fun p => p.2 ≠ ws)).map
              (fun p => OutMsg.toLocalUser p.1)
          ++ (rp.1.peers.filter (fun p => p.2 ≠ ws)).map (fun p => OutMsg.toPeerSid p.1))

theorem record_presence_fields (signFn : Nat → List (String × J) → String) (now : Int)
    (st : St) (user loc : String) :
    (record_presence signFn now st user loc).1.user_pubkeys = st.user_pubkeys
    ∧ (record_presence signFn now st user loc).1.user_advertise_envelopes =
        st.user_advertise_envelopes
    ∧ (record_presence signFn now st user loc).1.local_users = st.local_users
    ∧ (record_presence signFn now st user loc).1.user_locations =
        dictSet st.user_locations user loc := by
  unfold record_presence
  cases h : dictGet st.pending user with
  | none => exact ⟨rfl, rfl, rfl, rfl⟩
  | some q =>
    cases q with
    | nil => exact ⟨rfl, rfl, rfl, rfl⟩
    | cons a rest => exact ⟨rfl, rfl, rfl, rfl⟩

/-- C5 counterexample: the claim says a verified, non-duplicate
USER_ADVERTISE installs `user_locations[user_id] = envelope.from` when
`envelope.from` is not this node's id. Concretely: node "S1" handles an
advertise with `from = "S2"`; the handler instead installs
`user_locations["u1"] = "local"` (and registers the user as locally
attached), so the claimed mapping to `"S2"` does not hold. -/
theorem handle_USER_ADVERTISE_counterexample :
    dictGet (handle_USER_ADVERTISE (fun _ _ _ => true) (fun _ => "H") (fun _ _ => "") 7
        { server_id := "S1" } 9
        { etype := "USER_ADVERTISE", efrom := "S2", eto := "*", ts := 5,
          payload := [("user_id", .jstr "u1"), ("pubkey", .jstr "PK")],
          sig := some "SIG" }).1.user_locations "u1" = some "local"
    ∧ ("S2" : String) ≠ "S1" ∧ ("local" : String) ≠ "S2" := by
  refine ⟨rfl, by decide, by decide⟩

/-- C5 (amended): for every USER_ADVERTISE envelope that passes the field and
signature checks and is not a duplicate by fingerprint, the handler stores
`user_pubkeys[user_id] = pubkey`, caches the full envelope, registers the
ingress socket as the user's local link, and installs
`user_locations[user_id] = "local"` via `record_presence` — unconditionally,
regardless of the envelope's `from` field. -/
theorem handle_USER_ADVERTISE_spec (verifySig : List (String × J) → String → String → Bool)
    (hashFn : List (String × J) → String) (signFn : Nat → List (String × J) → String)
    (now : Int) (st : St) (ws : Nat) (frame : Env) (uid pk : String)
    (hu : jGetStr frame.payload "user_id" = uid)
    (hp : jGetStr frame.payload "pubkey" = pk)
    (huid : uid ≠ "") (hpk : pk ≠ "") (hsig : frame.sig.getD "" ≠ "")
    (hver : verifySig frame.payload (frame.sig.getD "") pk = true)
    (hdup : seen_key hashFn frame ∉ st.seen_ids) :
    dictGet (handle_USER_ADVERTISE verifySig hashFn signFn now st ws frame).1.user_pubkeys
        uid = some pk
    ∧ dictGet (handle_USER_ADVERTISE verifySig hashFn signFn now st ws
        frame).1.user_advertise_envelopes uid = some frame
    ∧ dictGet (handle_USER_ADVERTISE verifySig hashFn signFn now st ws
        frame).1.local_users uid = some ws
    ∧ dictGet (handle_USER_ADVERTISE verifySig hashFn signFn now st ws
        frame).1.user_locations uid = some "local" := by
  subst hu
  subst hp
  have hvalid : is_valid_user_advertise frame.payload (frame.sig.getD "") = true := by
    simp only [is_valid_user_advertise, Bool.and_eq_true, Bool.not_eq_true',
      beq_eq_false_iff_ne, ne_eq]
    exact ⟨⟨huid, hpk⟩, hsig⟩
  have hrs : remember_seen st (seen_key hashFn frame) =
      (false,
        { st with
            seen_ids := insert (seen_key hashFn frame) st.seen_ids,
            seen_queue :=
              if 10000 < (st.seen_queue ++ [seen_key hashFn frame]).length then
                (st.seen_queue ++ [seen_key hashFn frame]).drop 1
              else st.seen_queue ++ [seen_key hashFn frame] }) := by
    simp [remember_seen, hdup]
  have hif : ∀ (a b : St × List OutMsg), (if true = false then a else b) = b :=
    fun a b => by simp
  unfold handle_USER_ADVERTISE
  rw [hvalid, hver, hrs, hif, hif]
  dsimp only
  obtain ⟨f1, f2, f3, f4⟩ := record_presence_fields signFn now _ (jGetStr frame.payload
    "user_id") "local"
  refine ⟨?_, ?_, ?_, ?_⟩
  · rw [f1]
    exact dictGet_dictSet_self _ _ _
  · rw [f2]
    exact dictGet_dictSet_self _ _ _
  · rw [f3]
    exact dictGet_dictSet_self _ _ _
  · rw [f4]
    exact dictGet_dictSet_self _ _ _

/-- Witness for C5's amended theorem at a concrete remote-origin advertise:
all four directory updates are visible afterwards. -/
theorem handle_USER_ADVERTISE_spec_witness :
    dictGet (handle_USER_ADVERTISE (fun _ _ _ => true) (fun _ => "H") (fun _ _ => "") 7
        { server_id := "S1" } 9
        { etype := "USER_ADVERTISE", efrom := "S2", eto := "*", ts := 5,
          payload := [("user_id", .jstr "u1"), ("pubkey", .jstr "PK")],
          sig := some "SIG" }).1.user_pubkeys "u1" = some "PK"
    ∧ dictGet (handle_USER_ADVERTISE (fun _ _ _ => true) (fun _ => "H") (fun _ _ => "") 7
        { server_id := "S1" } 9
        { etype := "USER_ADVERTISE", efrom := "S2", eto := "*", ts := 5,
          payload := [("user_id", .jstr "u1"), ("pubkey", .jstr "PK")],
          sig := some "SIG" }).1.user_advertise_envelopes "u1" =
      some { etype := "USER_ADVERTISE", efrom := "S2", eto := "*", ts := 5,
             payload := [("user_id", .jstr "u1"), ("pubkey", .jstr "PK")],
             sig := some "SIG" }
    ∧ dictGet (handle_USER_ADVERTISE (fun _ _ _ => true) (fun _ => "H") (fun _ _ => "") 7
        { server_id := "S1" } 9
        { etype := "USER_ADVERTISE", efrom := "S2", eto := "*", ts := 5,
          payload := [("user_id", .jstr "u1"), ("pubkey", .jstr "PK")],
          sig := some "SIG" }).1.local_users "u1" = some 9
    ∧ dictGet (handle_USER_ADVERTISE (fun _ _ _ => true) (fun _ => "H") (fun _ _ => "") 7
        { server_id := "S1" } 9
        { etype := "USER_ADVERTISE", efrom := "S2", eto := "*", ts := 5,
          payload := [("user_id", .jstr "u1"), ("pubkey", .jstr "PK")],
          sig := some "SIG" }).1.user_locations "u1" = some "local" :=
  handle_USER_ADVERTISE_spec (fun _ _ _ => true) (fun _ => "H") (fun _ _ => "") 7
    { server_id := "S1" } 9
    { etype := "USER_ADVERTISE", efrom := "S2", eto := "*", ts := 5,
      payload := [("user_id", .jstr "u1"), ("pubkey", .jstr "PK")], sig := some "SIG" }
    "u1" "PK" rfl rfl (by decide) (by decide) (by decide) rfl (by decide)

end SecProg
